import Mathlib

/-!
# Verification of the zarrita array store (`src/zarrita`)

Shallow embedding of the zarrita Zarr-v3 array implementation.

The repository ships `src/zarrita/array.py` (the read/write orchestrator,
metadata, and chunk-key encodings), `src/zarrita/common.py` (tagged-union
structural decoding) and `src/test.py`.  The modules `zarrita/indexing.py`
(`BasicIndexer`), `zarrita/sharding.py` (`morton_order_iter`), the codec
implementations, the store and the value handles are not part of the sources;
where a definition below embeds one of those, its doc comment starts with
`Modelled from the spec:` and follows the wording of `spec.md`.

Modelling choices:
* An n-dimensional array is a total function `List Nat → α` from coordinate
  lists to element values; a shape `List Nat` delimits the meaningful domain.
  The element type `α` stands for the value set of any supported dtype.
* The key/value store holding chunks is a function `List Nat → Option chunk`
  keyed by chunk grid coordinates (the source keys the store by the injective
  string rendering `path ++ "/" ++ encode_chunk_key coords` of those
  coordinates; the rendering itself is verified separately).
* A slice selection is a list of per-axis `(start, stop)` pairs, already
  normalized to concrete bounds with step 1, exactly the normal form
  `BasicIndexer` works with.
* Codecs are pairs of chunk transformations (`encode`, `decode`).  The spec
  describes the concrete codecs only as invertible transforms (byte→byte or
  array→array), so theorems take the inverse law as a hypothesis.  The
  sharding codec's partial read/write branches are modelled by their
  spec-stated observable equivalence to the full decode / read-merge-write
  paths ("correctness is identical", spec §4.5).
-/

namespace Zarrita

/-! ## Selections, shapes and coordinates -/

/-- Result shape of a normalized selection: `stop - start` on each axis
(spec §4.2, "Output shape along axis `i` is `stop_i - start_i`"). -/
def selShape (sel : List (Nat × Nat)) : List Nat :=
  sel.map (fun p => p.2 - p.1)

/-- `j` is a valid coordinate for `shape`: same rank and `j i < shape i`. -/
def inShapeB : List Nat → List Nat → Bool
  | [], [] => true
  | j :: js, n :: ns => decide (j < n) && inShapeB js ns
  | _, _ => false

/-- `j` lies inside the selection `sel`: same rank and
`sel i .start ≤ j i < sel i .stop`. -/
def inSelB : List Nat → List (Nat × Nat) → Bool
  | [], [] => true
  | j :: js, p :: ps => (decide (p.1 ≤ j) && decide (j < p.2)) && inSelB js ps
  | _, _ => false

/-- Every chunk extent is positive (spec §3, `chunk_shape[i] ≥ 1`). -/
def posShapeB : List Nat → Bool
  | [] => true
  | c :: cs => decide (0 < c) && posShapeB cs

/-- Translate a coordinate lying in the box `src` to the corresponding
coordinate of the box `dst`: `dst.start + (x - src.start)` per axis.  This is
how the source moves between a chunk-local selection and the matching
out-selection (`out[out_selection] = chunk_array[chunk_selection]`). -/
def mapCoord : List Nat → List (Nat × Nat) → List (Nat × Nat) → List Nat
  | x :: xs, p :: ps, q :: qs => (q.1 + (x - p.1)) :: mapCoord xs ps qs
  | _, _, _ => []

/-! ## The indexer

Modelled from the spec (§4.2): `src/zarrita/indexing.py` (`BasicIndexer`) is
not among the sources; the definitions below follow the spec's formulas for
the chunks intersecting a selection and their chunk and out selections. -/

/-- Modelled from the spec: per-axis range of chunk indices intersecting the
selection, `[start_i // C_i, ceil(stop_i / C_i))`. -/
def axisChunks (c : Nat) (p : Nat × Nat) : List Nat :=
  List.range' (p.1 / c) ((p.2 + c - 1) / c - p.1 / c)

/-- Cartesian product of per-axis index lists, producing coordinate lists. -/
def cartesian : List (List Nat) → List (List Nat)
  | [] => [[]]
  | r :: rs => r.flatMap (fun x => (cartesian rs).map (fun t => x :: t))

/-- Modelled from the spec: all chunk coordinates intersecting `sel`
("Enumerate the chunks that intersect the selection as the Cartesian product
of per-axis chunk ranges"). -/
def chunkList (cshape : List Nat) (sel : List (Nat × Nat)) : List (List Nat) :=
  cartesian (List.zipWith axisChunks cshape sel)

/-- Modelled from the spec: the inside-chunk selection of chunk `k`,
`[max(start_i, o_i) - o_i, min(stop_i, o_i + C_i) - o_i)` with origin
`o_i = k_i · C_i`. -/
def cselOf : List Nat → List (Nat × Nat) → List Nat → List (Nat × Nat)
  | c :: cs, p :: ps, k :: ks =>
      (max p.1 (k * c) - k * c, min p.2 (k * c + c) - k * c) :: cselOf cs ps ks
  | _, _, _ => []

/-- Modelled from the spec: the inside-output selection of chunk `k`,
`[max(start_i, o_i) - start_i, min(stop_i, o_i + C_i) - start_i)`. -/
def oselOf : List Nat → List (Nat × Nat) → List Nat → List (Nat × Nat)
  | c :: cs, p :: ps, k :: ks =>
      (max p.1 (k * c) - p.1, min p.2 (k * c + c) - p.1) :: oselOf cs ps ks
  | _, _, _ => []

/-- The chunk containing the selection-relative coordinate `j`:
per axis `(start_i + j_i) / C_i`. -/
def chunkOfIdx : List Nat → List (Nat × Nat) → List Nat → List Nat
  | c :: cs, p :: ps, j :: js => ((p.1 + j) / c) :: chunkOfIdx cs ps js
  | _, _, _ => []

/-- Modelled from the spec: the indexer yields
`(chunk_coords, chunk_selection, out_selection)` tuples. -/
def indexerTriples (cshape : List Nat) (sel : List (Nat × Nat)) :
    List (List Nat × List (Nat × Nat) × List (Nat × Nat)) :=
  (chunkList cshape sel).map (fun k => (k, cselOf cshape sel k, oselOf cshape sel k))

/-- Modelled from the spec: `is_total_slice(sel, chunk_shape)` is "true iff
every axis slice is `0:chunk_shape[i]`" (§4.2; the function is imported by
`array.py` from `zarrita.common` but its definition is not in the sources). -/
def is_total_slice : List (Nat × Nat) → List Nat → Bool
  | [], [] => true
  | p :: ps, c :: cs => (decide (p.1 = 0) && decide (p.2 = c)) && is_total_slice ps cs
  | _, _ => false

/-- All valid coordinates of a box of the given shape. -/
def allCoords (shape : List Nat) : List (List Nat) :=
  cartesian (shape.map (fun n => List.range n))

/-! ## Codecs and the codec pipeline -/

/-- A codec, as the pair of transformations the pipeline composes.  Modelled
from the spec (§4.4): each codec is `encode(vh, core) -> vh` /
`decode(vh, core) -> vh`; the codec implementations are not in the sources,
so the transformations are abstract here. -/
structure Codec (α : Type) where
  enc : (List Nat → α) → (List Nat → α)
  dec : (List Nat → α) → (List Nat → α)

/-- `Array._encode_chunk` (array.py:495): apply the codecs in declared order
(`for codec in self.metadata.codecs: ... codec.encode(...)`). -/
def encodePipeline {α : Type} (cs : List (Codec α)) (a : List Nat → α) : List Nat → α :=
  cs.foldl (fun x c => c.enc x) a

/-- The codec loop of `Array._decode_chunk` (array.py:372): apply the codecs
in reverse order (`for codec_metadata in self.metadata.codecs[::-1]: ...`). -/
def decodePipeline {α : Type} (cs : List (Codec α)) (v : List Nat → α) : List Nat → α :=
  cs.reverse.foldl (fun x c => c.dec x) v

/-! ## The array orchestrator (`src/zarrita/array.py`) -/

/-- The chunk store: chunk coordinates to the stored (encoded) chunk value,
`none` when the key is absent.  (In the source, keys are the strings
`path ++ "/" ++ encode_chunk_key coords`; the encoding is injective, so the
store is keyed by the coordinates directly here.) -/
def Store (α : Type) : Type := List Nat → Option (List Nat → α)

/-- The slice of `CoreArrayMetadata` (array.py:109) the read/write paths
consume: chunk shape, fill value, and the codec pipeline. -/
structure CoreMetadata (α : Type) where
  chunk_shape : List Nat
  fill_value : α
  codecs : List (Codec α)

/-- The value passed to `Array.set_async`: either a scalar (numpy scalar,
broadcast over the selection) or an array with its shape. -/
inductive Val (α : Type) where
  | scalar (v : α)
  | array (shape : List Nat) (f : List Nat → α)

/-- Element lookup of a `set` value at an out-selection coordinate; a scalar
broadcasts (`value[out_selection]` in the source). -/
def valAt {α : Type} : Val α → List Nat → α
  | .scalar c, _ => c
  | .array _ f, j => f j

/-- Error raised by `set_async`'s validation (`assert value.shape ==
sel_shape`, array.py:421; `InvalidSelection` in spec §7). -/
inductive SetError where
  | invalidSelection
deriving DecidableEq

/-- `Array._decode_chunk` (array.py:365): run the codecs in reverse order over
the stored value.  (The trailing dtype-view and reshape of the source
re-express the same elements in the chunk's shape; chunks are already
shape-indexed functions here.) -/
def decode_chunk {α : Type} (cfg : CoreMetadata α) (enc : List Nat → α) : List Nat → α :=
  decodePipeline cfg.codecs enc

/-- `Array._encode_chunk` (array.py:495): run the codecs in declared order. -/
def encode_chunk {α : Type} (cfg : CoreMetadata α) (arr : List Nat → α) : List Nat → α :=
  encodePipeline cfg.codecs arr

/-- `Array._write_chunk` (array.py:484): a chunk equal to `fill_value`
everywhere is removed (`NoneValueHandle`, i.e. a delete); otherwise the chunk
is encoded and set. -/
def write_chunk {α : Type} [DecidableEq α] (cfg : CoreMetadata α) (store : Store α)
    (k : List Nat) (arr : List Nat → α) : Store α :=
  if (allCoords cfg.chunk_shape).all (fun l => decide (arr l = cfg.fill_value)) then
    fun key => if key = k then none else store key
  else
    fun key => if key = k then some (encode_chunk cfg arr) else store key

/-- `Array._fetch_chunk` (array.py:313): read one chunk and scatter
`chunk_array[chunk_selection]` into `out[out_selection]`; a missing chunk
scatters `fill_value`.  (The sharding partial-decode branch of the source is
observably the full decode restricted to the selection, spec §4.5.) -/
def fetch_chunk {α : Type} (cfg : CoreMetadata α) (store : Store α)
    (out : List Nat → α) (t : List Nat × List (Nat × Nat) × List (Nat × Nat)) :
    List Nat → α :=
  match store t.1 with
  | none => fun j => if inSelB j t.2.2 then cfg.fill_value else out j
  | some enc =>
      let chunk := decode_chunk cfg enc
      fun j => if inSelB j t.2.2 then chunk (mapCoord j t.2.2 t.2.1) else out j

/-- Value contributed at output coordinate `j` by the chunk of triple `t`
(the scatter value of `fetch_chunk` when `j` lies in the out-selection). -/
def chunk_read {α : Type} (cfg : CoreMetadata α) (store : Store α)
    (t : List Nat × List (Nat × Nat) × List (Nat × Nat)) (j : List Nat) : α :=
  match store t.1 with
  | none => cfg.fill_value
  | some enc => decode_chunk cfg enc (mapCoord j t.2.2 t.2.1)

/-- `Array.get_async` (array.py:338): allocate the output (`np.zeros`, here an
arbitrary initial element `z`), then fetch every chunk of the indexer and
scatter it into the output. -/
def get_async {α : Type} (cfg : CoreMetadata α) (store : Store α)
    (sel : List (Nat × Nat)) (z : α) : List Nat → α :=
  (indexerTriples cfg.chunk_shape sel).foldl (fetch_chunk cfg store) (fun _ => z)

/-- The full chunk array materialized by the total-slice branch of
`Array.set_async` (array.py:433): a scalar fill, or `value[out_selection]`. -/
def total_chunk {α : Type} (v : Val α) (csel osel : List (Nat × Nat)) :
    List Nat → α :=
  match v with
  | .scalar c => fun _ => c
  | .array _ f => fun l => f (mapCoord l csel osel)

/-- The merged chunk array of the partial-write branch of `Array.set_async`
(array.py:460-480): decode the existing chunk (`fill_value`-initialized when
absent) and assign `value[out_selection]` into `chunk_selection`. -/
def merged_chunk {α : Type} (cfg : CoreMetadata α) (old : Option (List Nat → α))
    (v : Val α) (csel osel : List (Nat × Nat)) : List Nat → α :=
  fun l =>
    if inSelB l csel then valAt v (mapCoord l csel osel)
    else
      match old with
      | none => cfg.fill_value
      | some enc => decode_chunk cfg enc l

/-- One chunk of the write loop of `Array.set_async` (array.py:426): a total
slice materializes the chunk from the value alone; otherwise the existing
chunk is decoded (fill-initialized when absent), the new values are merged at
`chunk_selection`, and the result goes through `_write_chunk`.  (The sharding
partial-encode branch of the source is observably this read-merge-write,
spec §4.5.) -/
def set_chunk_step {α : Type} [DecidableEq α] (cfg : CoreMetadata α) (v : Val α)
    (store : Store α) (t : List Nat × List (Nat × Nat) × List (Nat × Nat)) :
    Store α :=
  if is_total_slice t.2.1 cfg.chunk_shape then
    write_chunk cfg store t.1 (total_chunk v t.2.1 t.2.2)
  else
    write_chunk cfg store t.1 (merged_chunk cfg (store t.1) v t.2.1 t.2.2)

/-- The write loop of `Array.set_async` over all chunks of the indexer. -/
def set_store {α : Type} [DecidableEq α] (cfg : CoreMetadata α) (store : Store α)
    (sel : List (Nat × Nat)) (v : Val α) : Store α :=
  (indexerTriples cfg.chunk_shape sel).foldl (set_chunk_step cfg v) store

/-- `Array.set_async` (array.py:399): validate the value's shape against the
selection's result shape (array.py:409-423, before any chunk is written),
then run the write loop.  The error case returns the store unchanged,
matching the source where the failed `assert` precedes the chunk loop. -/
def set_async {α : Type} [DecidableEq α] (cfg : CoreMetadata α) (store : Store α)
    (sel : List (Nat × Nat)) (v : Val α) : Option SetError × Store α :=
  match v with
  | .scalar _ => (none, set_store cfg store sel v)
  | .array sh _ =>
      if selShape sel = [] then (some .invalidSelection, store)
      else if sh ≠ selShape sel then (some .invalidSelection, store)
      else (none, set_store cfg store sel v)

/-! ## Chunk key encodings (array.py:62-105) -/

/-- Python's `sep.join(parts)`. -/
def strJoin (sep : String) : List String → String
  | [] => ""
  | a :: as' => as'.foldl (fun acc s => acc ++ sep ++ s) a

/-- The chunk-key-encoding metadata variants (`DefaultChunkKeyEncodingMetadata`
and `V2ChunkKeyEncodingMetadata`, each carrying a separator). -/
inductive ChunkKeyEncodingMetadata where
  | defaultEnc (separator : String)
  | v2Enc (separator : String)
deriving DecidableEq

/-- `encode_chunk_key` of the two variants: default joins `("c",) + coords`
with the separator (array.py:79); v2 joins the coordinates and renders the
empty join as `"0"` (array.py:98). -/
def encode_chunk_key : ChunkKeyEncodingMetadata → List Nat → String
  | .defaultEnc sep, coords => strJoin sep ("c" :: coords.map toString)
  | .v2Enc sep, coords =>
      let chunk_identifier := strJoin sep (coords.map toString)
      if chunk_identifier = "" then "0" else chunk_identifier

/-! ## Metadata and `Array.create_async` (array.py:151-211) -/

/-- The `DataType` enum (array.py:22). -/
inductive DataType where
  | bool | int8 | int16 | int32 | int64
  | uint8 | uint16 | uint32 | uint64
  | float32 | float64
deriving DecidableEq

/-- `RegularChunkGridConfigurationMetadata` (array.py:52). -/
structure RegularChunkGridConfigurationMetadata where
  chunk_shape : List Nat
deriving DecidableEq

/-- `RegularChunkGridMetadata` (array.py:57). -/
structure RegularChunkGridMetadata where
  configuration : RegularChunkGridConfigurationMetadata
deriving DecidableEq

/-- `ArrayMetadata` (array.py:122), restricted to the fields `create_async`
computes nontrivially.  `fill_value` is `Any` in the source; an integer
stands in for the JSON scalar. -/
structure ArrayMetadata where
  shape : List Nat
  data_type : DataType
  chunk_grid : RegularChunkGridMetadata
  chunk_key_encoding : ChunkKeyEncodingMetadata
  fill_value : Int
  dimension_names : Option (List String)
deriving DecidableEq

/-- The metadata store (`zarr.json` documents by key). -/
def MetaStore : Type := String → Option ArrayMetadata

/-- `ZARR_JSON` (common.py:10). -/
def ZARR_JSON : String := "zarr.json"

/-- `Array.create_async` (array.py:151): build the metadata — with
`fill_value=0 if fill_value is None else fill_value` (array.py:197) — and
persist it at `{path}/zarr.json` (`_save_metadata`, array.py:285). -/
def create_async (store : MetaStore) (path : String) (shape : List Nat)
    (dtype : DataType) (chunk_shape : List Nat) (fill_value : Option Int)
    (chunk_key_encoding : String × String) (dimension_names : Option (List String)) :
    ArrayMetadata × MetaStore :=
  let metadata : ArrayMetadata :=
    { shape := shape
      data_type := dtype
      chunk_grid := ⟨⟨chunk_shape⟩⟩
      chunk_key_encoding :=
        if chunk_key_encoding.1 = "v2" then .v2Enc chunk_key_encoding.2
        else .defaultEnc chunk_key_encoding.2
      fill_value := match fill_value with | none => 0 | some v => v
      dimension_names := dimension_names }
  (metadata, fun key =>
    if key = path ++ "/" ++ ZARR_JSON then some metadata else store key)

/-! ## Structural decoding of tagged unions (common.py:18-81) -/

/-- A raw tagged-union member of `zarr.json`, reduced to its dispatch tag
(`d["name"]`). -/
structure RawTagged where
  name : String
deriving DecidableEq

/-- The codec variants `_structure_codec_metadata` can produce. -/
inductive CodecName where
  | blosc | endian | transpose | gzip | sharding_indexed
deriving DecidableEq

/-- The chunk-key-encoding variants `_structure_chunk_key_encoding_metadata`
can produce. -/
inductive ChunkKeyName where
  | default | v2
deriving DecidableEq

/-- `_structure_codec_metadata` (common.py:46): dispatch on `d["name"]`;
any other name raises `KeyError`. -/
def structure_codec_metadata (d : RawTagged) : Except String CodecName :=
  if d.name = "blosc" then .ok .blosc
  else if d.name = "endian" then .ok .endian
  else if d.name = "transpose" then .ok .transpose
  else if d.name = "gzip" then .ok .gzip
  else if d.name = "sharding_indexed" then .ok .sharding_indexed
  else .error "KeyError"

/-- `_structure_chunk_key_encoding_metadata` (common.py:33): dispatch on
`d["name"]`; any other name raises `KeyError`. -/
def structure_chunk_key_encoding_metadata (d : RawTagged) : Except String ChunkKeyName :=
  if d.name = "default" then .ok .default
  else if d.name = "v2" then .ok .v2
  else .error "KeyError"

/-- Structure each element of the `codecs` list, propagating the first
`KeyError` (the cattrs converter structures the list elementwise). -/
def structure_codec_list : List RawTagged → Except String (List CodecName)
  | [] => .ok []
  | c :: cs =>
      match structure_codec_metadata c with
      | .error e => .error e
      | .ok m =>
          match structure_codec_list cs with
          | .error e => .error e
          | .ok ms => .ok (m :: ms)

/-- The tagged-union fields of a raw `zarr.json` document. -/
structure RawArrayMetadata where
  chunk_key_encoding : RawTagged
  codecs : List RawTagged
deriving DecidableEq

/-- Structural decoding of the tagged-union fields, as `Array.from_json` /
`make_cattr().structure` performs it on open: both unions are dispatched by
`name` and an unknown name is an error. -/
def structure_array_metadata (raw : RawArrayMetadata) :
    Except String (ChunkKeyName × List CodecName) :=
  match structure_chunk_key_encoding_metadata raw.chunk_key_encoding with
  | .error e => .error e
  | .ok cke =>
      match structure_codec_list raw.codecs with
      | .error e => .error e
      | .ok cs => .ok (cke, cs)

/-! ## Morton order (`morton_order_iter`) -/

/-- Smallest `b` with `m ≤ 2 ^ b`: bits needed to index `m` values. -/
def bitsFor (m : Nat) : Nat :=
  ((List.range (m + 1)).find? (fun b => decide (m ≤ 2 ^ b))).getD 0

/-- Modelled from the spec: number of bits needed for the largest extent
(sub-chunk shapes in the tested scenarios have equal power-of-two extents). -/
def mortonBits (shape : List Nat) : Nat :=
  bitsFor (shape.foldr max 1)

/-- Modelled from the spec: de-interleave the Z-curve index `z` into `n` axis
coordinates, "interleaving bits of `k_0, k_1, ..., k_{n-1}` LSB-first so that
axis 0 contributes the lowest bit per position" (spec §4.5). -/
def mortonDecode (n : Nat) (nbits : Nat) (z : Nat) : List Nat :=
  (List.range n).map (fun i =>
    (List.range nbits).foldr (fun b acc => 2 * acc + z / 2 ^ (i + b * n) % 2) 0)

/-- Modelled from the spec: `morton_order_iter` from the missing
`src/zarrita/sharding.py` enumerates the sub-chunk grid coordinates of
`shape` in Z-curve order, axis 0 contributing the lowest bit. -/
def morton_order_iter (shape : List Nat) : List (List Nat) :=
  (List.range (shape.foldr (· * ·) 1)).map
    (fun z => mortonDecode shape.length (mortonBits shape) z)

/-! ## Helper lemmas: the codec pipeline -/

theorem decodePipeline_cons {α : Type} (c : Codec α) (cs : List (Codec α))
    (v : List Nat → α) :
    decodePipeline (c :: cs) v = c.dec (decodePipeline cs v) := by
  show ((c :: cs).reverse.foldl (fun x d => d.dec x) v) = _
  rw [List.reverse_cons, List.foldl_append]
  rfl

theorem decodePipeline_encodePipeline {α : Type} (cs : List (Codec α))
    (h : ∀ c ∈ cs, ∀ x, c.dec (c.enc x) = x) (a : List Nat → α) :
    decodePipeline cs (encodePipeline cs a) = a := by
  induction cs generalizing a with
  | nil => rfl
  | cons c cs ih =>
    have hc : ∀ x, c.dec (c.enc x) = x := h c (List.mem_cons_self c cs)
    have hcs : ∀ d ∈ cs, ∀ x, d.dec (d.enc x) = x :=
      fun d hd => h d (List.mem_cons_of_mem c hd)
    show decodePipeline (c :: cs) (encodePipeline cs (c.enc a)) = a
    rw [decodePipeline_cons, ih hcs (c.enc a), hc]

/-! ## Claim C4: codec order on encode and decode -/

/-- C4: for every codec list in the array metadata, `_encode_chunk` applies
the codecs in declared order (the first codec receives the array and the
last produces the stored value), and `_decode_chunk` applies the same codecs
in exactly the reverse order: a single codec encodes with `enc` and decodes
with `dec`, and splitting the pipeline anywhere shows the left part is
applied first on encode and last on decode. -/
theorem codec_pipeline_order {α : Type} (cfg : CoreMetadata α)
    (cs ds : List (Codec α)) (c : Codec α) (a v : List Nat → α) :
    encode_chunk cfg a = encodePipeline cfg.codecs a ∧
    decode_chunk cfg v = decodePipeline cfg.codecs v ∧
    encodePipeline [c] a = c.enc a ∧
    decodePipeline [c] v = c.dec v ∧
    encodePipeline (cs ++ ds) a = encodePipeline ds (encodePipeline cs a) ∧
    decodePipeline (cs ++ ds) v = decodePipeline cs (decodePipeline ds v) := by
  refine ⟨rfl, rfl, rfl, rfl, ?_, ?_⟩
  · show (cs ++ ds).foldl (fun x d => d.enc x) a = _
    rw [List.foldl_append]
    rfl
  · show (cs ++ ds).reverse.foldl (fun x d => d.dec x) v = _
    rw [List.reverse_append, List.foldl_append]
    rfl

/-! ## Helper lemmas: per-axis indexer arithmetic -/

theorem axis_lt_o_add (c g : Nat) (hc : 0 < c) : g < g / c * c + c := by
  have h1 := Nat.div_add_mod' g c
  have h2 := Nat.mod_lt g hc
  omega

theorem axis_div_mem (c a b j : Nat) (hc : 0 < c) (hj : j < b - a) :
    (a + j) / c ∈ List.range' (a / c) ((b + c - 1) / c - a / c) := by
  rw [List.mem_range'_1]
  have h1 : a / c ≤ (a + j) / c := Nat.div_le_div_right (Nat.le_add_right a j)
  have h2 : (a + j) / c < (b + c - 1) / c := by
    have e3 : b + c - 1 = b - 1 + c := by omega
    rw [e3, Nat.add_div_right _ hc]
    have e1 : (a + j) / c ≤ (b - 1) / c := Nat.div_le_div_right (by omega)
    omega
  omega

theorem axis_osel_mem (c a b j : Nat) (hc : 0 < c) (hj : j < b - a) :
    max a ((a + j) / c * c) - a ≤ j ∧ j < min b ((a + j) / c * c + c) - a := by
  have h1 : (a + j) / c * c ≤ a + j := Nat.div_mul_le_self _ c
  have h2 : a + j < (a + j) / c * c + c := axis_lt_o_add c (a + j) hc
  omega

theorem axis_uniq (c a b j k : Nat)
    (h1 : max a (k * c) - a ≤ j) (h2 : j < min b (k * c + c) - a) :
    k = (a + j) / c := by
  have hk1 : k * c ≤ a + j := by omega
  have hk2 : a + j < (k + 1) * c := by
    have he : (k + 1) * c = k * c + c := by ring
    omega
  exact (Nat.div_eq_of_lt_le hk1 hk2).symm

/-- The chunk-local coordinate corresponding to out-coordinate `j` is
`(a + j) - o`, it lies inside the chunk selection and inside the chunk
shape, and mapping it back through the out-selection returns `j`. -/
theorem axis_l_facts (c a b j : Nat) (hc : 0 < c) (hj : j < b - a) :
    ((max a ((a + j) / c * c) - (a + j) / c * c) + (j - (max a ((a + j) / c * c) - a))
        = a + j - (a + j) / c * c) ∧
    (max a ((a + j) / c * c) - (a + j) / c * c ≤ a + j - (a + j) / c * c) ∧
    (a + j - (a + j) / c * c < min b ((a + j) / c * c + c) - (a + j) / c * c) ∧
    (a + j - (a + j) / c * c < c) ∧
    ((max a ((a + j) / c * c) - a) +
        ((a + j - (a + j) / c * c) - (max a ((a + j) / c * c) - (a + j) / c * c)) = j) := by
  have h1 : (a + j) / c * c ≤ a + j := Nat.div_mul_le_self _ c
  have h2 : a + j < (a + j) / c * c + c := axis_lt_o_add c (a + j) hc
  omega

/-! ## Helper lemmas: the chunk grid enumeration -/

theorem mem_cartesian_length : ∀ (rs : List (List Nat)) (x : List Nat),
    x ∈ cartesian rs → x.length = rs.length := by
  intro rs
  induction rs with
  | nil =>
    intro x hx
    simp only [cartesian, List.mem_singleton] at hx
    simp [hx]
  | cons r rs ih =>
    intro x hx
    simp only [cartesian, List.mem_flatMap, List.mem_map] at hx
    obtain ⟨y, _, t, ht, rfl⟩ := hx
    simp [ih t ht]

theorem cartesian_nodup : ∀ rs : List (List Nat),
    (∀ r ∈ rs, r.Nodup) → (cartesian rs).Nodup := by
  intro rs
  induction rs with
  | nil => intro _; simp [cartesian]
  | cons r rs ih =>
    intro h
    have hr : r.Nodup := h r (List.mem_cons_self r rs)
    have hrs : (cartesian rs).Nodup :=
      ih (fun r' hr' => h r' (List.mem_cons_of_mem r hr'))
    simp only [cartesian]
    rw [List.nodup_flatMap]
    constructor
    · intro x _
      exact hrs.map (fun s t hst => (List.cons.injEq x s x t).mp hst |>.2)
    · refine hr.imp ?_
      intro a b hab t hta htb
      obtain ⟨t₁, _, rfl⟩ := List.mem_map.mp hta
      obtain ⟨t₂, _, he⟩ := List.mem_map.mp htb
      exact hab ((List.cons.injEq b t₂ a t₁).mp he).1.symm

theorem zipWith_axisChunks_nodup : ∀ (cshape : List Nat) (sel : List (Nat × Nat)),
    ∀ r ∈ List.zipWith axisChunks cshape sel, r.Nodup := by
  intro cshape
  induction cshape with
  | nil => intro sel r hr; simp at hr
  | cons c cs ih =>
    intro sel r hr
    cases sel with
    | nil => simp at hr
    | cons p ps =>
      rcases List.mem_cons.mp hr with rfl | hmem
      · exact List.nodup_range' _ _
      · exact ih ps r hmem

theorem chunkList_nodup (cshape : List Nat) (sel : List (Nat × Nat)) :
    (chunkList cshape sel).Nodup :=
  cartesian_nodup _ (zipWith_axisChunks_nodup cshape sel)

theorem chunkList_mem_length (cshape : List Nat) (sel : List (Nat × Nat))
    (hlen : sel.length = cshape.length) (k : List Nat) (hk : k ∈ chunkList cshape sel) :
    k.length = cshape.length := by
  have h := mem_cartesian_length _ k hk
  rw [List.length_zipWith, hlen, min_self] at h
  exact h

/-! ## Helper lemmas: the indexer covers each output coordinate once -/

/-- The chunk containing an output coordinate is enumerated by the indexer. -/
theorem chunkOfIdx_mem : ∀ (cshape : List Nat) (sel : List (Nat × Nat)) (j : List Nat),
    posShapeB cshape = true → sel.length = cshape.length →
    inShapeB j (selShape sel) = true →
    chunkOfIdx cshape sel j ∈ chunkList cshape sel := by
  intro cshape
  induction cshape with
  | nil =>
    intro sel j _ hlen _
    cases sel with
    | cons p ps => simp at hlen
    | nil => simp [chunkOfIdx, chunkList, cartesian]
  | cons c cs ih =>
    intro sel j hc hlen hj
    cases sel with
    | nil => simp at hlen
    | cons p ps =>
      cases j with
      | nil => simp [selShape, inShapeB] at hj
      | cons x js =>
        simp only [posShapeB, Bool.and_eq_true, decide_eq_true_eq] at hc
        simp only [selShape, List.map_cons, inShapeB, Bool.and_eq_true,
          decide_eq_true_eq] at hj
        have hlen' : ps.length = cs.length := by simpa using hlen
        simp only [chunkOfIdx, chunkList, List.zipWith_cons_cons, cartesian]
        refine List.mem_flatMap.mpr ⟨(p.1 + x) / c, ?_, ?_⟩
        · exact axis_div_mem c p.1 p.2 x hc.1 hj.1
        · exact List.mem_map_of_mem _ (ih ps js hc.2 hlen' hj.2)

/-- Each output coordinate lies in the out-selection of its own chunk. -/
theorem inSelB_oselOf : ∀ (cshape : List Nat) (sel : List (Nat × Nat)) (j : List Nat),
    posShapeB cshape = true → sel.length = cshape.length →
    inShapeB j (selShape sel) = true →
    inSelB j (oselOf cshape sel (chunkOfIdx cshape sel j)) = true := by
  intro cshape
  induction cshape with
  | nil =>
    intro sel j _ hlen hj
    cases sel with
    | cons p ps => simp at hlen
    | nil =>
      cases j with
      | cons x js => simp [selShape, inShapeB] at hj
      | nil => rfl
  | cons c cs ih =>
    intro sel j hc hlen hj
    cases sel with
    | nil => simp at hlen
    | cons p ps =>
      cases j with
      | nil => simp [selShape, inShapeB] at hj
      | cons x js =>
        simp only [posShapeB, Bool.and_eq_true, decide_eq_true_eq] at hc
        simp only [selShape, List.map_cons, inShapeB, Bool.and_eq_true,
          decide_eq_true_eq] at hj
        have hlen' : ps.length = cs.length := by simpa using hlen
        obtain ⟨ho1, ho2⟩ := axis_osel_mem c p.1 p.2 x hc.1 hj.1
        simp only [chunkOfIdx, oselOf, inSelB, Bool.and_eq_true, decide_eq_true_eq]
        exact ⟨⟨ho1, ho2⟩, ih ps js hc.2 hlen' hj.2⟩

/-- A chunk whose out-selection contains the output coordinate `j` is the
chunk of `j`: the indexer's out-selections are pairwise disjoint. -/
theorem oselOf_uniq : ∀ (cshape : List Nat) (sel : List (Nat × Nat)) (k' j : List Nat),
    sel.length = cshape.length → k'.length = cshape.length →
    inSelB j (oselOf cshape sel k') = true →
    k' = chunkOfIdx cshape sel j := by
  intro cshape
  induction cshape with
  | nil =>
    intro sel k' j hlen hklen _
    cases sel with
    | cons p ps => simp at hlen
    | nil =>
      cases k' with
      | cons k ks => simp at hklen
      | nil =>
        cases j with
        | nil => rfl
        | cons x js => rfl
  | cons c cs ih =>
    intro sel k' j hlen hklen hin
    cases sel with
    | nil => simp at hlen
    | cons p ps =>
      cases k' with
      | nil => simp at hklen
      | cons k ks =>
        cases j with
        | nil => simp [oselOf, inSelB] at hin
        | cons x js =>
          simp only [oselOf, inSelB, Bool.and_eq_true, decide_eq_true_eq] at hin
          have hlen' : ps.length = cs.length := by simpa using hlen
          have hklen' : ks.length = cs.length := by simpa using hklen
          simp only [chunkOfIdx]
          rw [axis_uniq c p.1 p.2 x k hin.1.1 hin.1.2, ih ps ks js hlen' hklen' hin.2]

/-- The chunk-local coordinate of an output coordinate `j` lies in the chunk
selection and in the chunk shape, and maps back to `j`. -/
theorem mapCoord_facts : ∀ (cshape : List Nat) (sel : List (Nat × Nat)) (j : List Nat),
    posShapeB cshape = true → sel.length = cshape.length →
    inShapeB j (selShape sel) = true →
    (inSelB (mapCoord j (oselOf cshape sel (chunkOfIdx cshape sel j))
        (cselOf cshape sel (chunkOfIdx cshape sel j)))
      (cselOf cshape sel (chunkOfIdx cshape sel j)) = true) ∧
    (inShapeB (mapCoord j (oselOf cshape sel (chunkOfIdx cshape sel j))
        (cselOf cshape sel (chunkOfIdx cshape sel j))) cshape = true) ∧
    (mapCoord (mapCoord j (oselOf cshape sel (chunkOfIdx cshape sel j))
        (cselOf cshape sel (chunkOfIdx cshape sel j)))
      (cselOf cshape sel (chunkOfIdx cshape sel j))
      (oselOf cshape sel (chunkOfIdx cshape sel j)) = j) := by
  intro cshape
  induction cshape with
  | nil =>
    intro sel j _ hlen hj
    cases sel with
    | cons p ps => simp at hlen
    | nil =>
      cases j with
      | cons x js => simp [selShape, inShapeB] at hj
      | nil => exact ⟨rfl, rfl, rfl⟩
  | cons c cs ih =>
    intro sel j hc hlen hj
    cases sel with
    | nil => simp at hlen
    | cons p ps =>
      cases j with
      | nil => simp [selShape, inShapeB] at hj
      | cons x js =>
        simp only [posShapeB, Bool.and_eq_true, decide_eq_true_eq] at hc
        simp only [selShape, List.map_cons, inShapeB, Bool.and_eq_true,
          decide_eq_true_eq] at hj
        have hlen' : ps.length = cs.length := by simpa using hlen
        obtain ⟨ih1, ih2, ih3⟩ := ih ps js hc.2 hlen' hj.2
        obtain ⟨e1, e2, e3, e4, e5⟩ := axis_l_facts c p.1 p.2 x hc.1 hj.1
        simp only [chunkOfIdx, oselOf, cselOf, mapCoord, inSelB, inShapeB,
          Bool.and_eq_true, decide_eq_true_eq, List.cons.injEq]
        rw [e1]
        exact ⟨⟨⟨e2, e3⟩, ih1⟩, ⟨e4, ih2⟩, ⟨e5, ih3⟩⟩

/-! ## Helper lemmas: the write loop writes each chunk key once -/

theorem inShapeB_mem_allCoords : ∀ (shape l : List Nat),
    inShapeB l shape = true → l ∈ allCoords shape := by
  intro shape
  induction shape with
  | nil =>
    intro l hl
    cases l with
    | cons x xs => simp [inShapeB] at hl
    | nil => simp [allCoords, cartesian]
  | cons n ns ih =>
    intro l hl
    cases l with
    | nil => simp [inShapeB] at hl
    | cons x xs =>
      simp only [inShapeB, Bool.and_eq_true, decide_eq_true_eq] at hl
      simp only [allCoords, List.map_cons, cartesian]
      exact List.mem_flatMap.mpr
        ⟨x, List.mem_range.mpr hl.1, List.mem_map_of_mem _ (ih xs hl.2)⟩

theorem write_chunk_self {α : Type} [DecidableEq α] (cfg : CoreMetadata α)
    (s : Store α) (k : List Nat) (arr : List Nat → α) :
    write_chunk cfg s k arr k =
      if (allCoords cfg.chunk_shape).all (fun l => decide (arr l = cfg.fill_value)) then
        none
      else some (encode_chunk cfg arr) := by
  unfold write_chunk
  split <;> simp

theorem write_chunk_other {α : Type} [DecidableEq α] (cfg : CoreMetadata α)
    (s : Store α) (k : List Nat) (arr : List Nat → α) (key : List Nat)
    (h : key ≠ k) :
    write_chunk cfg s k arr key = s key := by
  unfold write_chunk
  split <;> simp [h]

theorem set_chunk_step_total {α : Type} [DecidableEq α] (cfg : CoreMetadata α)
    (v : Val α) (s : Store α) (k : List Nat) (csel osel : List (Nat × Nat))
    (htot : is_total_slice csel cfg.chunk_shape = true) :
    set_chunk_step cfg v s (k, csel, osel) =
      write_chunk cfg s k (total_chunk v csel osel) := by
  simp only [set_chunk_step, htot, if_true]

theorem set_chunk_step_partial {α : Type} [DecidableEq α] (cfg : CoreMetadata α)
    (v : Val α) (s : Store α) (k : List Nat) (csel osel : List (Nat × Nat))
    (htot : ¬ is_total_slice csel cfg.chunk_shape = true) :
    set_chunk_step cfg v s (k, csel, osel) =
      write_chunk cfg s k (merged_chunk cfg (s k) v csel osel) := by
  rw [Bool.not_eq_true] at htot
  simp only [set_chunk_step, htot, Bool.false_eq_true, if_false]

theorem set_chunk_step_other {α : Type} [DecidableEq α] (cfg : CoreMetadata α)
    (v : Val α) (s : Store α) (t : List Nat × List (Nat × Nat) × List (Nat × Nat))
    (key : List Nat) (h : key ≠ t.1) :
    set_chunk_step cfg v s t key = s key := by
  unfold set_chunk_step
  split <;> exact write_chunk_other cfg s t.1 _ key h

theorem set_chunk_step_congr {α : Type} [DecidableEq α] (cfg : CoreMetadata α)
    (v : Val α) (s₁ s₂ : Store α)
    (t : List Nat × List (Nat × Nat) × List (Nat × Nat))
    (h : s₁ t.1 = s₂ t.1) :
    set_chunk_step cfg v s₁ t t.1 = set_chunk_step cfg v s₂ t t.1 := by
  unfold set_chunk_step
  split
  · rw [write_chunk_self, write_chunk_self]
  · rw [write_chunk_self, write_chunk_self, h]

theorem set_fold_other {α : Type} [DecidableEq α] (cfg : CoreMetadata α) (v : Val α) :
    ∀ (L : List (List Nat × List (Nat × Nat) × List (Nat × Nat))) (s : Store α)
      (key : List Nat), key ∉ L.map (fun t => t.1) →
      (L.foldl (set_chunk_step cfg v) s) key = s key := by
  intro L
  induction L with
  | nil => intro s key _; rfl
  | cons u L ih =>
    intro s key hk
    simp only [List.map_cons, List.mem_cons, not_or] at hk
    rw [List.foldl_cons, ih (set_chunk_step cfg v s u) key hk.2]
    exact set_chunk_step_other cfg v s u key hk.1

theorem set_fold_mem {α : Type} [DecidableEq α] (cfg : CoreMetadata α) (v : Val α) :
    ∀ (L : List (List Nat × List (Nat × Nat) × List (Nat × Nat))) (s : Store α)
      (t : List Nat × List (Nat × Nat) × List (Nat × Nat)),
      (L.map (fun t => t.1)).Nodup → t ∈ L →
      (L.foldl (set_chunk_step cfg v) s) t.1 = set_chunk_step cfg v s t t.1 := by
  intro L
  induction L with
  | nil => intro s t _ ht; exact absurd ht (List.not_mem_nil t)
  | cons u L ih =>
    intro s t hnd ht
    simp only [List.map_cons, List.nodup_cons] at hnd
    rcases List.mem_cons.mp ht with rfl | hmem
    · rw [List.foldl_cons, set_fold_other cfg v L (set_chunk_step cfg v s t) t.1 hnd.1]
    · have hne : t.1 ≠ u.1 := by
        intro he
        exact hnd.1 (he ▸ List.mem_map_of_mem (fun t => t.1) hmem)
      rw [List.foldl_cons, ih (set_chunk_step cfg v s u) t hnd.2 hmem]
      exact set_chunk_step_congr cfg v _ s t
        (set_chunk_step_other cfg v s u t.1 hne)

/-! ## Helper lemmas: the read loop scatters each coordinate once -/

theorem fetch_chunk_not_in {α : Type} (cfg : CoreMetadata α) (s : Store α)
    (out : List Nat → α) (t : List Nat × List (Nat × Nat) × List (Nat × Nat))
    (j : List Nat) (h : inSelB j t.2.2 = false) :
    fetch_chunk cfg s out t j = out j := by
  unfold fetch_chunk
  cases hs : s t.1 <;> simp [hs, h]

theorem fetch_chunk_in {α : Type} (cfg : CoreMetadata α) (s : Store α)
    (out : List Nat → α) (t : List Nat × List (Nat × Nat) × List (Nat × Nat))
    (j : List Nat) (h : inSelB j t.2.2 = true) :
    fetch_chunk cfg s out t j = chunk_read cfg s t j := by
  unfold fetch_chunk chunk_read
  cases hs : s t.1 <;> simp [hs, h]

theorem get_fold_point {α : Type} (cfg : CoreMetadata α) (s : Store α) (j : List Nat)
    (V : α) : ∀ (L : List (List Nat × List (Nat × Nat) × List (Nat × Nat)))
      (out : List Nat → α),
      (∀ t ∈ L, inSelB j t.2.2 = true → chunk_read cfg s t j = V) → out j = V →
      (L.foldl (fetch_chunk cfg s) out) j = V := by
  intro L
  induction L with
  | nil => intro out _ hout; exact hout
  | cons u L ih =>
    intro out hV hout
    rw [List.foldl_cons]
    refine ih (fetch_chunk cfg s out u) (fun t ht h => hV t (List.mem_cons_of_mem u ht) h) ?_
    cases hu : inSelB j u.2.2 with
    | true => rw [fetch_chunk_in cfg s out u j hu]; exact hV u (List.mem_cons_self u L) hu
    | false => rw [fetch_chunk_not_in cfg s out u j hu]; exact hout

theorem get_fold_found {α : Type} (cfg : CoreMetadata α) (s : Store α) (j : List Nat) :
    ∀ (L : List (List Nat × List (Nat × Nat) × List (Nat × Nat)))
      (out : List Nat → α) (t : List Nat × List (Nat × Nat) × List (Nat × Nat)),
      t ∈ L → inSelB j t.2.2 = true →
      (∀ t' ∈ L, inSelB j t'.2.2 = true → chunk_read cfg s t' j = chunk_read cfg s t j) →
      (L.foldl (fetch_chunk cfg s) out) j = chunk_read cfg s t j := by
  intro L
  induction L with
  | nil => intro out t ht; exact absurd ht (List.not_mem_nil t)
  | cons u L ih =>
    intro out t ht hin huniq
    cases hu : inSelB j u.2.2 with
    | true =>
      rw [List.foldl_cons]
      refine get_fold_point cfg s j _ L (fetch_chunk cfg s out u)
        (fun t' ht' h' => huniq t' (List.mem_cons_of_mem u ht') h') ?_
      rw [fetch_chunk_in cfg s out u j hu]
      exact huniq u (List.mem_cons_self u L) hu
    | false =>
      have hne : t ≠ u := by
        intro he
        rw [he, hu] at hin
        exact Bool.false_ne_true hin
      have hmem : t ∈ L := (List.mem_cons.mp ht).resolve_left hne
      rw [List.foldl_cons]
      exact ih (fetch_chunk cfg s out u) t hmem hin
        (fun t' ht' h' => huniq t' (List.mem_cons_of_mem u ht') h')

/-- Reading back a chunk written by `_write_chunk` recovers the written array
at every in-shape coordinate: a deleted all-fill chunk reads as `fill_value`
(which equals the written array there), and a stored chunk decodes back. -/
theorem chunk_read_write {α : Type} [DecidableEq α] (cfg : CoreMetadata α)
    (s s' : Store α) (k : List Nat) (csel osel : List (Nat × Nat))
    (arr : List Nat → α) (j : List Nat)
    (hcodec : ∀ c ∈ cfg.codecs, ∀ x, c.dec (c.enc x) = x)
    (hval : s' k = write_chunk cfg s k arr k)
    (hl : inShapeB (mapCoord j osel csel) cfg.chunk_shape = true) :
    chunk_read cfg s' (k, csel, osel) j = arr (mapCoord j osel csel) := by
  unfold chunk_read
  rw [hval, write_chunk_self]
  by_cases hf : (allCoords cfg.chunk_shape).all
      (fun l => decide (arr l = cfg.fill_value)) = true
  · rw [if_pos hf]
    show cfg.fill_value = arr (mapCoord j osel csel)
    have := List.all_eq_true.mp hf (mapCoord j osel csel)
      (inShapeB_mem_allCoords cfg.chunk_shape (mapCoord j osel csel) hl)
    exact (of_decide_eq_true this).symm
  · rw [if_neg hf]
    show decode_chunk cfg (encode_chunk cfg arr) (mapCoord j osel csel) = _
    unfold decode_chunk encode_chunk
    rw [decodePipeline_encodePipeline cfg.codecs hcodec arr]

theorem mem_allCoords_inShapeB : ∀ (shape l : List Nat),
    l ∈ allCoords shape → inShapeB l shape = true := by
  intro shape
  induction shape with
  | nil =>
    intro l hl
    simp only [allCoords, List.map_nil, cartesian, List.mem_singleton] at hl
    simp [hl, inShapeB]
  | cons n ns ih =>
    intro l hl
    simp only [allCoords, List.map_cons, cartesian, List.mem_flatMap, List.mem_map] at hl
    obtain ⟨x, hx, t, ht, rfl⟩ := hl
    simp only [inShapeB, Bool.and_eq_true, decide_eq_true_eq]
    exact ⟨List.mem_range.mp hx, ih t ht⟩

theorem indexerTriples_keys_nodup (cshape : List Nat) (sel : List (Nat × Nat)) :
    ((indexerTriples cshape sel).map (fun t => t.1)).Nodup := by
  have he : (indexerTriples cshape sel).map (fun t => t.1) = chunkList cshape sel := by
    unfold indexerTriples
    rw [List.map_map]
    exact List.map_id (chunkList cshape sel)
  rw [he]
  exact chunkList_nodup cshape sel

/-- Core of the round trip: after `set_store` writes the array `A` over the
selection, reading the same selection recovers `A` at every coordinate of the
result shape. -/
theorem get_after_set_store {α : Type} [DecidableEq α] (cfg : CoreMetadata α)
    (store : Store α) (sel : List (Nat × Nat)) (A : List Nat → α) (z : α)
    (j : List Nat)
    (hc : posShapeB cfg.chunk_shape = true)
    (hlen : sel.length = cfg.chunk_shape.length)
    (hcodec : ∀ c ∈ cfg.codecs, ∀ x, c.dec (c.enc x) = x)
    (hj : inShapeB j (selShape sel) = true) :
    get_async cfg (set_store cfg store sel (Val.array (selShape sel) A)) sel z j
      = A j := by
  obtain ⟨hm1, hm2, hm3⟩ := mapCoord_facts cfg.chunk_shape sel j hc hlen hj
  have htL : (chunkOfIdx cfg.chunk_shape sel j,
        cselOf cfg.chunk_shape sel (chunkOfIdx cfg.chunk_shape sel j),
        oselOf cfg.chunk_shape sel (chunkOfIdx cfg.chunk_shape sel j)) ∈
      indexerTriples cfg.chunk_shape sel :=
    List.mem_map_of_mem _ (chunkOfIdx_mem cfg.chunk_shape sel j hc hlen hj)
  have hin : inSelB j (oselOf cfg.chunk_shape sel (chunkOfIdx cfg.chunk_shape sel j))
      = true := inSelB_oselOf cfg.chunk_shape sel j hc hlen hj
  have huniq : ∀ t' ∈ indexerTriples cfg.chunk_shape sel, inSelB j t'.2.2 = true →
      chunk_read cfg (set_store cfg store sel (Val.array (selShape sel) A)) t' j =
      chunk_read cfg (set_store cfg store sel (Val.array (selShape sel) A))
        (chunkOfIdx cfg.chunk_shape sel j,
          cselOf cfg.chunk_shape sel (chunkOfIdx cfg.chunk_shape sel j),
          oselOf cfg.chunk_shape sel (chunkOfIdx cfg.chunk_shape sel j)) j := by
    intro t' ht' h'
    obtain ⟨k', hk', rfl⟩ := List.mem_map.mp ht'
    rw [oselOf_uniq cfg.chunk_shape sel k' j hlen
      (chunkList_mem_length cfg.chunk_shape sel hlen k' hk') h']
  have hgf : get_async cfg (set_store cfg store sel (Val.array (selShape sel) A))
      sel z j =
      chunk_read cfg (set_store cfg store sel (Val.array (selShape sel) A))
        (chunkOfIdx cfg.chunk_shape sel j,
          cselOf cfg.chunk_shape sel (chunkOfIdx cfg.chunk_shape sel j),
          oselOf cfg.chunk_shape sel (chunkOfIdx cfg.chunk_shape sel j)) j :=
    get_fold_found cfg _ j (indexerTriples cfg.chunk_shape sel) (fun _ => z) _
      htL hin huniq
  have hsK : set_store cfg store sel (Val.array (selShape sel) A)
        (chunkOfIdx cfg.chunk_shape sel j) =
      set_chunk_step cfg (Val.array (selShape sel) A) store
        (chunkOfIdx cfg.chunk_shape sel j,
          cselOf cfg.chunk_shape sel (chunkOfIdx cfg.chunk_shape sel j),
          oselOf cfg.chunk_shape sel (chunkOfIdx cfg.chunk_shape sel j))
        (chunkOfIdx cfg.chunk_shape sel j) :=
    set_fold_mem cfg (Val.array (selShape sel) A)
      (indexerTriples cfg.chunk_shape sel) store _
      (indexerTriples_keys_nodup cfg.chunk_shape sel) htL
  rw [hgf]
  by_cases htot : is_total_slice
      (cselOf cfg.chunk_shape sel (chunkOfIdx cfg.chunk_shape sel j))
      cfg.chunk_shape = true
  · have harr : set_store cfg store sel (Val.array (selShape sel) A)
          (chunkOfIdx cfg.chunk_shape sel j) =
        write_chunk cfg store (chunkOfIdx cfg.chunk_shape sel j)
          (total_chunk (Val.array (selShape sel) A)
            (cselOf cfg.chunk_shape sel (chunkOfIdx cfg.chunk_shape sel j))
            (oselOf cfg.chunk_shape sel (chunkOfIdx cfg.chunk_shape sel j)))
          (chunkOfIdx cfg.chunk_shape sel j) := by
      rw [hsK, set_chunk_step_total cfg _ store _ _ _ htot]
    rw [chunk_read_write cfg store _ _ _ _ _ j hcodec harr hm2]
    show A (mapCoord (mapCoord j _ _) _ _) = A j
    rw [hm3]
  · have harr : set_store cfg store sel (Val.array (selShape sel) A)
          (chunkOfIdx cfg.chunk_shape sel j) =
        write_chunk cfg store (chunkOfIdx cfg.chunk_shape sel j)
          (merged_chunk cfg (store (chunkOfIdx cfg.chunk_shape sel j))
            (Val.array (selShape sel) A)
            (cselOf cfg.chunk_shape sel (chunkOfIdx cfg.chunk_shape sel j))
            (oselOf cfg.chunk_shape sel (chunkOfIdx cfg.chunk_shape sel j)))
          (chunkOfIdx cfg.chunk_shape sel j) := by
      rw [hsK, set_chunk_step_partial cfg _ store _ _ _ htot]
    rw [chunk_read_write cfg store _ _ _ _ _ j hcodec harr hm2]
    unfold merged_chunk
    rw [if_pos hm1]
    show A (mapCoord (mapCoord j _ _) _ _) = A j
    rw [hm3]

/-! ## Helper lemmas: strings -/

theorem toDigitsCore_length_le (b : Nat) : ∀ (fuel n : Nat) (ds : List Char),
    ds.length ≤ (Nat.toDigitsCore b fuel n ds).length := by
  intro fuel
  induction fuel with
  | zero => intro n ds; simp [Nat.toDigitsCore]
  | succ f ih =>
    intro n ds
    simp only [Nat.toDigitsCore]
    split
    · simp
    · exact le_trans (by simp) (ih (n / b) (Nat.digitChar (n % b) :: ds))

theorem toDigitsCore_length_pos (b fuel n : Nat) (ds : List Char) :
    ds.length + 1 ≤ (Nat.toDigitsCore b (fuel + 1) n ds).length := by
  simp only [Nat.toDigitsCore]
  split
  · simp
  · exact le_trans (by simp) (toDigitsCore_length_le b fuel (n / b) (Nat.digitChar (n % b) :: ds))

theorem nat_toString_ne_empty (n : Nat) : toString n ≠ "" := by
  have h : 1 ≤ (toString n).length := by
    show 1 ≤ (Nat.repr n).length
    have hr : (Nat.repr n).length = (Nat.toDigitsCore 10 (n + 1) n []).length := rfl
    rw [hr]
    exact toDigitsCore_length_pos 10 n n []
  intro hc
  rw [hc] at h
  simp at h

theorem strJoin_foldl_pre (sep pre : String) : ∀ (l : List String) (acc : String),
    l.foldl (fun x s => x ++ sep ++ s) (pre ++ acc) =
      pre ++ l.foldl (fun x s => x ++ sep ++ s) acc := by
  intro l
  induction l with
  | nil => intro acc; rfl
  | cons c l ih =>
    intro acc
    simp only [List.foldl_cons]
    rw [String.append_assoc, String.append_assoc, ← String.append_assoc acc sep c, ih]

theorem strJoin_cons_cons (sep a b : String) (l : List String) :
    strJoin sep (a :: b :: l) = a ++ sep ++ strJoin sep (b :: l) := by
  show List.foldl (fun x s => x ++ sep ++ s) (a ++ sep ++ b) l = _
  rw [strJoin_foldl_pre sep (a ++ sep) l b]
  rfl

theorem strJoin_length_le (sep : String) : ∀ (l : List String) (acc : String),
    acc.length ≤ (l.foldl (fun x s => x ++ sep ++ s) acc).length := by
  intro l
  induction l with
  | nil => intro acc; exact le_refl _
  | cons c l ih =>
    intro acc
    refine le_trans ?_ (ih (acc ++ sep ++ c))
    simp only [String.length_append]
    omega

theorem strJoin_cons_ne_empty (sep a : String) (l : List String) (ha : a ≠ "") :
    strJoin sep (a :: l) ≠ "" := by
  intro hc
  have h1 : 1 ≤ a.length := by
    by_contra hlen
    exact ha (String.ext (by
      have : a.length = 0 := by omega
      simpa [String.length] using List.length_eq_zero.mp this))
  have h2 : 1 ≤ (strJoin sep (a :: l)).length := le_trans h1 (strJoin_length_le sep l a)
  rw [hc] at h2
  simp [String.length] at h2

/-! ## Claim C5: chunk key encodings -/

/-- C5: for every chunk coordinate tuple and separator, the default chunk key
encoding produces `"c"` followed by the separator-joined coordinates (and
exactly `"c"` for the empty tuple of a scalar array), and the v2 encoding
produces the separator-joined coordinates (and exactly `"0"` for the empty
tuple). -/
theorem encode_chunk_key_correct (sep : String) (k : Nat) (ks : List Nat) :
    encode_chunk_key (.defaultEnc sep) [] = "c" ∧
    encode_chunk_key (.defaultEnc sep) (k :: ks) =
      "c" ++ sep ++ strJoin sep ((k :: ks).map toString) ∧
    encode_chunk_key (.v2Enc sep) [] = "0" ∧
    encode_chunk_key (.v2Enc sep) (k :: ks) = strJoin sep ((k :: ks).map toString) := by
  refine ⟨rfl, ?_, rfl, ?_⟩
  · show strJoin sep ("c" :: (k :: ks).map toString) = _
    rw [List.map_cons]
    exact strJoin_cons_cons sep "c" (toString k) (ks.map toString)
  · show (if strJoin sep ((k :: ks).map toString) = "" then "0"
      else strJoin sep ((k :: ks).map toString)) = strJoin sep ((k :: ks).map toString)
    rw [List.map_cons, if_neg (strJoin_cons_ne_empty sep (toString k) (ks.map toString)
      (nat_toString_ne_empty k))]

/-! ## Claim C10: default fill value on create -/

/-- C10: for every call to `Array.create` in which `fill_value` is omitted or
passed as `None`, the metadata constructed and persisted to `zarr.json` has
`fill_value` equal to `0`, regardless of the data type. -/
theorem create_async_default_fill_value (store : MetaStore) (path : String)
    (shape : List Nat) (dtype : DataType) (chunk_shape : List Nat)
    (cke : String × String) (dnames : Option (List String)) :
    (create_async store path shape dtype chunk_shape none cke dnames).1.fill_value = 0 ∧
    (create_async store path shape dtype chunk_shape none cke dnames).2
        (path ++ "/" ++ ZARR_JSON) =
      some (create_async store path shape dtype chunk_shape none cke dnames).1 := by
  refine ⟨rfl, ?_⟩
  simp [create_async]

/-! ## Claim C6: tagged-union decoding rejects unknown names -/

theorem structure_codec_metadata_unknown (d : RawTagged)
    (h : d.name ∉ ["blosc", "endian", "transpose", "gzip", "sharding_indexed"]) :
    structure_codec_metadata d = .error "KeyError" := by
  simp only [List.mem_cons, List.not_mem_nil, or_false, not_or] at h
  obtain ⟨h1, h2, h3, h4, h5⟩ := h
  simp [structure_codec_metadata, h1, h2, h3, h4, h5]

theorem structure_chunk_key_encoding_metadata_unknown (d : RawTagged)
    (h : d.name ∉ ["default", "v2"]) :
    structure_chunk_key_encoding_metadata d = .error "KeyError" := by
  simp only [List.mem_cons, List.not_mem_nil, or_false, not_or] at h
  obtain ⟨h1, h2⟩ := h
  simp [structure_chunk_key_encoding_metadata, h1, h2]

theorem structure_codec_list_error {c : RawTagged} {e : String} :
    ∀ (L : List RawTagged), c ∈ L → structure_codec_metadata c = .error e →
      ∀ ms, structure_codec_list L ≠ .ok ms := by
  intro L
  induction L with
  | nil => intro hc; exact absurd hc (List.not_mem_nil c)
  | cons a L ih =>
    intro hc he ms
    rcases List.mem_cons.mp hc with rfl | hmem
    · simp [structure_codec_list, he]
    · simp only [structure_codec_list]
      cases ha : structure_codec_metadata a with
      | error e' => simp
      | ok m =>
        cases hl : structure_codec_list L with
        | error e' => simp
        | ok ms' => exact absurd hl (ih hmem he ms')

/-- C6: when opening an array, structural decoding of the `codecs` and
`chunk_key_encoding` tagged unions dispatches on the `name` field, and any
name outside the known set (`blosc`, `endian`, `transpose`, `gzip`,
`sharding_indexed`; `default`, `v2`) causes open to fail with an error rather
than returning a structured result. -/
theorem structure_array_metadata_unknown_name (raw : RawArrayMetadata)
    (h : raw.chunk_key_encoding.name ∉ ["default", "v2"] ∨
      ∃ c ∈ raw.codecs,
        c.name ∉ ["blosc", "endian", "transpose", "gzip", "sharding_indexed"]) :
    ∀ r, structure_array_metadata raw ≠ .ok r := by
  intro r
  rcases h with h | ⟨c, hc, hname⟩
  · simp [structure_array_metadata,
      structure_chunk_key_encoding_metadata_unknown raw.chunk_key_encoding h]
  · simp only [structure_array_metadata]
    cases hk : structure_chunk_key_encoding_metadata raw.chunk_key_encoding with
    | error e => simp
    | ok cke =>
      cases hl : structure_codec_list raw.codecs with
      | error e => simp
      | ok ms =>
        exact absurd hl (structure_codec_list_error raw.codecs hc
          (structure_codec_metadata_unknown c hname) ms)

/-- C6 witness: a codec named `"zstd"` makes structural decoding fail. -/
theorem structure_array_metadata_unknown_name_witness :
    structure_array_metadata ⟨⟨"default"⟩, [⟨"zstd"⟩]⟩ ≠
      .ok (ChunkKeyName.default, []) :=
  structure_array_metadata_unknown_name ⟨⟨"default"⟩, [⟨"zstd"⟩]⟩
    (Or.inr ⟨⟨"zstd"⟩, by decide, by decide⟩) (ChunkKeyName.default, [])

/-! ## Claim C7: Morton enumeration -/

/-- C7: `morton_order_iter` enumerates sub-chunk grid coordinates in Z-curve
order with axis 0 contributing the lowest bit: for shape `(2,2)` it yields
exactly `[(0,0),(1,0),(0,1),(1,1)]`, for `(2,2,2)` the eight coordinates in
LSB-first order, and for `(2,2,2,2)` the sixteen-coordinate LSB-first
extension of that pattern. -/
theorem morton_order_iter_small_shapes :
    morton_order_iter [2, 2] = [[0, 0], [1, 0], [0, 1], [1, 1]] ∧
    morton_order_iter [2, 2, 2] =
      [[0, 0, 0], [1, 0, 0], [0, 1, 0], [1, 1, 0],
       [0, 0, 1], [1, 0, 1], [0, 1, 1], [1, 1, 1]] ∧
    morton_order_iter [2, 2, 2, 2] =
      [[0, 0, 0, 0], [1, 0, 0, 0], [0, 1, 0, 0], [1, 1, 0, 0],
       [0, 0, 1, 0], [1, 0, 1, 0], [0, 1, 1, 0], [1, 1, 1, 0],
       [0, 0, 0, 1], [1, 0, 0, 1], [0, 1, 0, 1], [1, 1, 0, 1],
       [0, 0, 1, 1], [1, 0, 1, 1], [0, 1, 1, 1], [1, 1, 1, 1]] := by
  refine ⟨by decide, by decide, by decide⟩

/-! ## Claim C1: write-then-read round trip -/

/-- C1: for every array (any element type, standing for any supported dtype;
any rank, covering ranks 1 to 4), any chunk shape (whether or not it divides
the array shape — the indexer clips chunk selections at the selection bounds
either way), and any codec pipeline whose codecs decode what they encode
(as all the listed pipelines do), writing an array `A` over a selection and
then reading the same selection returns an array equal to `A`: the `set`
succeeds and every coordinate of the result shape reads back `A`. -/
theorem set_get_roundtrip {α : Type} [DecidableEq α] (cfg : CoreMetadata α)
    (store : Store α) (sel : List (Nat × Nat)) (A : List Nat → α) (z : α)
    (j : List Nat)
    (hc : posShapeB cfg.chunk_shape = true)
    (hlen : sel.length = cfg.chunk_shape.length)
    (hrank : 0 < sel.length)
    (hcodec : ∀ c ∈ cfg.codecs, ∀ x, c.dec (c.enc x) = x)
    (hj : inShapeB j (selShape sel) = true) :
    set_async cfg store sel (Val.array (selShape sel) A) =
      (none, set_store cfg store sel (Val.array (selShape sel) A)) ∧
    get_async cfg (set_store cfg store sel (Val.array (selShape sel) A)) sel z j
      = A j := by
  constructor
  · have h1 : ¬ selShape sel = [] := by
      intro h
      have h2 := congrArg List.length h
      simp only [selShape, List.length_map, List.length_nil] at h2
      omega
    show (if selShape sel = [] then (some SetError.invalidSelection, store)
      else if selShape sel ≠ selShape sel then (some SetError.invalidSelection, store)
      else (none, set_store cfg store sel (Val.array (selShape sel) A))) = _
    rw [if_neg h1, if_neg (not_not_intro rfl)]
  · exact get_after_set_store cfg store sel A z j hc hlen hcodec hj

/-- Concrete configuration for the C1 witness: a one-axis array with chunk
shape `[2]`, fill `0`, no codecs. -/
def w1cfg : CoreMetadata Int := ⟨[2], 0, []⟩

/-- Concrete value written in the C1 witness. -/
def w1A : List Nat → Int := fun j => if j = [0] then 5 else 7

/-- C1 witness: writing `w1A` over the selection `0:2` of the one-chunk array
and reading coordinate `[0]` back returns `w1A [0] = 5`. -/
theorem set_get_roundtrip_witness :
    get_async w1cfg
      (set_store w1cfg (fun _ => none) [(0, 2)] (Val.array (selShape [(0, 2)]) w1A))
      [(0, 2)] 9 [0] = 5 :=
  (set_get_roundtrip w1cfg (fun _ => none) [(0, 2)] w1A 9 [0] (by decide) rfl
    (by decide) (fun c hc => absurd hc (List.not_mem_nil c)) (by decide)).2

/-! ## Claim C2: all-fill chunks are deleted and read back as fill -/

/-- C2: for every chunk routed through the write path, if the full chunk
array that would be stored equals `fill_value` at every in-shape element,
then after the write the chunk's key is absent from the store (a delete is
issued instead of a set), and a subsequent read of that chunk scatters
`fill_value` at every selected coordinate. -/
theorem write_chunk_fill_elision {α : Type} [DecidableEq α] (cfg : CoreMetadata α)
    (s : Store α) (k : List Nat) (arr : List Nat → α)
    (hfill : ∀ l, inShapeB l cfg.chunk_shape = true → arr l = cfg.fill_value) :
    write_chunk cfg s k arr k = none ∧
    ∀ (csel osel : List (Nat × Nat)) (out : List Nat → α) (j : List Nat),
      inSelB j osel = true →
      fetch_chunk cfg (write_chunk cfg s k arr) out (k, csel, osel) j
        = cfg.fill_value := by
  have hall : (allCoords cfg.chunk_shape).all
      (fun l => decide (arr l = cfg.fill_value)) = true := by
    rw [List.all_eq_true]
    intro l hl
    exact decide_eq_true (hfill l (mem_allCoords_inShapeB cfg.chunk_shape l hl))
  have hwk : write_chunk cfg s k arr k = none := by
    rw [write_chunk_self, if_pos hall]
  refine ⟨hwk, ?_⟩
  intro csel osel out j hj
  rw [fetch_chunk_in cfg _ out (k, csel, osel) j hj]
  show (match write_chunk cfg s k arr k with
    | none => cfg.fill_value
    | some enc => decode_chunk cfg enc (mapCoord j osel csel)) = cfg.fill_value
  rw [hwk]

/-- C2 witness: writing an all-zero chunk into a store deletes the key, and a
read of that chunk yields the fill value `0`. -/
theorem write_chunk_fill_elision_witness :
    write_chunk (⟨[1], 0, []⟩ : CoreMetadata Int) (fun _ => some (fun _ => 8)) [0]
      (fun _ => 0) [0] = none ∧
    fetch_chunk (⟨[1], 0, []⟩ : CoreMetadata Int)
      (write_chunk (⟨[1], 0, []⟩ : CoreMetadata Int) (fun _ => some (fun _ => 8)) [0]
        (fun _ => 0))
      (fun _ => 3) ([0], [(0, 1)], [(0, 1)]) [0] = 0 :=
  ⟨(write_chunk_fill_elision (⟨[1], 0, []⟩ : CoreMetadata Int)
      (fun _ => some (fun _ => 8)) [0] (fun _ => 0) (fun _ _ => rfl)).1,
   (write_chunk_fill_elision (⟨[1], 0, []⟩ : CoreMetadata Int)
      (fun _ => some (fun _ => 8)) [0] (fun _ => 0) (fun _ _ => rfl)).2
     [(0, 1)] [(0, 1)] (fun _ => 3) [0] (by decide)⟩

/-! ## Claim C3: a fresh array reads back as fill everywhere -/

/-- C3: for a freshly created array on which no set has been performed (every
chunk key absent), `get` of any valid selection returns a buffer in which
every element equals the array's `fill_value` — for every initial output
element `z` (the source allocates with `np.zeros`) and in particular also
when `fill_value` is nonzero. -/
theorem get_fresh_fill {α : Type} (cfg : CoreMetadata α) (sel : List (Nat × Nat))
    (z : α) (j : List Nat)
    (hc : posShapeB cfg.chunk_shape = true)
    (hlen : sel.length = cfg.chunk_shape.length)
    (hj : inShapeB j (selShape sel) = true) :
    get_async cfg (fun _ => none) sel z j = cfg.fill_value := by
  have htL : (chunkOfIdx cfg.chunk_shape sel j,
        cselOf cfg.chunk_shape sel (chunkOfIdx cfg.chunk_shape sel j),
        oselOf cfg.chunk_shape sel (chunkOfIdx cfg.chunk_shape sel j)) ∈
      indexerTriples cfg.chunk_shape sel :=
    List.mem_map_of_mem _ (chunkOfIdx_mem cfg.chunk_shape sel j hc hlen hj)
  have hin : inSelB j (oselOf cfg.chunk_shape sel (chunkOfIdx cfg.chunk_shape sel j))
      = true := inSelB_oselOf cfg.chunk_shape sel j hc hlen hj
  exact get_fold_found cfg (fun _ => none) j (indexerTriples cfg.chunk_shape sel)
    (fun _ => z) _ htL hin (fun t' _ _ => rfl)

/-- C3 witness: an empty two-chunk store with nonzero fill `7` reads `7` at
coordinate `[2]` of selection `0:3`, despite a zero-initialized output. -/
theorem get_fresh_fill_witness :
    get_async (⟨[2], 7, []⟩ : CoreMetadata Int) (fun _ => none) [(0, 3)] 0 [2] = 7 :=
  get_fresh_fill (⟨[2], 7, []⟩ : CoreMetadata Int) [(0, 3)] 0 [2]
    (by decide) rfl (by decide)

/-! ## Claim C8: total-slice writes ignore the previous chunk state -/

/-- C8: for every chunk whose chunk selection is a total slice, `set`
materializes the full chunk array from the new value alone (a scalar fill or
`value[out_selection]`) and routes it through the write path, so the
resulting chunk state is the same for any two prior stores: it never reads
or decodes the chunk's previously stored contents. -/
theorem set_total_slice_independent {α : Type} [DecidableEq α]
    (cfg : CoreMetadata α) (v : Val α) (s s₁ s₂ : Store α) (k : List Nat)
    (csel osel : List (Nat × Nat))
    (htot : is_total_slice csel cfg.chunk_shape = true) :
    set_chunk_step cfg v s (k, csel, osel) =
      write_chunk cfg s k (total_chunk v csel osel) ∧
    set_chunk_step cfg v s₁ (k, csel, osel) k =
      set_chunk_step cfg v s₂ (k, csel, osel) k := by
  refine ⟨set_chunk_step_total cfg v s k csel osel htot, ?_⟩
  rw [set_chunk_step_total cfg v s₁ k csel osel htot,
    set_chunk_step_total cfg v s₂ k csel osel htot,
    write_chunk_self, write_chunk_self]

/-- C8 witness: a total-slice scalar write of `4` stores the same chunk over
an empty store and over a store holding an old chunk of `8`s. -/
theorem set_total_slice_independent_witness :
    set_chunk_step (⟨[2], 0, []⟩ : CoreMetadata Int) (Val.scalar 4)
      (fun _ => none) ([0], [(0, 2)], [(3, 5)]) =
      write_chunk (⟨[2], 0, []⟩ : CoreMetadata Int) (fun _ => none) [0]
        (total_chunk (Val.scalar 4) [(0, 2)] [(3, 5)]) ∧
    set_chunk_step (⟨[2], 0, []⟩ : CoreMetadata Int) (Val.scalar 4)
      (fun _ => none) ([0], [(0, 2)], [(3, 5)]) [0] =
    set_chunk_step (⟨[2], 0, []⟩ : CoreMetadata Int) (Val.scalar 4)
      (fun _ => some (fun _ => 8)) ([0], [(0, 2)], [(3, 5)]) [0] :=
  set_total_slice_independent (⟨[2], 0, []⟩ : CoreMetadata Int) (Val.scalar 4)
    (fun _ => none) (fun _ => none) (fun _ => some (fun _ => 8)) [0]
    [(0, 2)] [(3, 5)] (by decide)

/-! ## Claim C9: shape-mismatched writes fail before touching the store -/

/-- C9: for every `set` call with a non-scalar value whose shape differs from
the selection's result shape, the operation fails with an invalid-selection
error and returns the store unchanged — the validation happens before any
chunk of the write loop runs (array.py:409-423). -/
theorem set_async_shape_mismatch {α : Type} [DecidableEq α] (cfg : CoreMetadata α)
    (store : Store α) (sel : List (Nat × Nat)) (sh : List Nat) (f : List Nat → α)
    (hne : sh ≠ selShape sel) :
    set_async cfg store sel (Val.array sh f) =
      (some SetError.invalidSelection, store) := by
  show (if selShape sel = [] then (some SetError.invalidSelection, store)
    else if sh ≠ selShape sel then (some SetError.invalidSelection, store)
    else (none, set_store cfg store sel (Val.array sh f))) = _
  by_cases h0 : selShape sel = []
  · rw [if_pos h0]
  · rw [if_neg h0, if_pos hne]

/-- C9 witness: writing a shape-`[3]` value over a shape-`[2]` selection
fails with the invalid-selection error and leaves the (empty) store as it
was. -/
theorem set_async_shape_mismatch_witness :
    set_async (⟨[2], 0, []⟩ : CoreMetadata Int) (fun _ => none) [(0, 2)]
      (Val.array [3] (fun _ => 1)) =
      (some SetError.invalidSelection, fun _ => none) :=
  set_async_shape_mismatch (⟨[2], 0, []⟩ : CoreMetadata Int) (fun _ => none)
    [(0, 2)] [3] (fun _ => 1) (by decide)

end Zarrita
